import Mathlib

/-!
Verification of the iphoneclaw core: agent loop, L0 memoization cache,
router, control state, event hub and conversation window.

Each Python source construct is shallowly embedded as an executable Lean
definition; machine integers are modelled as `Nat` (fingerprints are
64-bit values produced by dHash), Python `Optional` as `Option`, Python
dicts keyed by fingerprint as lists of entries in insertion order whose
`fingerprint` field is the key.
-/

namespace Iphoneclaw

/-! ### `automation/fingerprint.py`

`hamming_distance(a, b)` is `bin(a ^ b).count("1")`: the number of one
bits in the xor.  We define a structurally recursive popcount (the fuel
argument strictly decreases; `n / 2 < n` for `n > 0` guarantees the fuel
`n` itself is always sufficient). -/

/-- Number of one bits of `n`, computed with explicit structural fuel. -/
def popcountAux : Nat → Nat → Nat
  | 0, _ => 0
  | fuel + 1, n => if n = 0 then 0 else popcountAux fuel (n / 2) + n % 2

/-- Number of one bits in the binary representation of `n`
(`bin(n).count("1")` in the source). -/
def popcount (n : Nat) : Nat := popcountAux n n

/-- Function `hamming_distance` from `automation/fingerprint.py`: count of
differing bits between two hashes. -/
def hamming_distance (a b : Nat) : Nat := popcount (a ^^^ b)

/-! ### `automation/cache.py` — data model

`PredictionParsed` lives in `iphoneclaw/types.py` (a plain dataclass of
string-valued fields; only the fields used by the core are kept:
`action_type`, `raw_action`, `thought`, with `action_inputs` kept as an
opaque string payload). -/

structure PredictionParsed where
  action_type : String
  raw_action : String := ""
  thought : String := ""
  action_inputs : String := ""
  deriving Repr, DecidableEq

/-- Dataclass `L0CacheEntry` from `automation/cache.py`. -/
structure L0CacheEntry where
  fingerprint : Nat
  actions : List PredictionParsed
  post_fingerprint : Option Nat := none
  hit_count : Nat := 0
  last_step : Nat := 0
  succeeded : Bool := true
  deriving Repr, DecidableEq

/-- Class `L0Cache`: the dict `_entries : fingerprint -> entry` is modelled as
the list of its values in insertion order; the key of a stored entry is
its `fingerprint` field (exactly how `store`/`evict` use the dict). -/
structure L0Cache where
  hash_threshold : Nat := 5
  max_reuse : Nat := 3
  max_entries : Nat := 256
  entries : List L0CacheEntry := []
  deriving Repr, DecidableEq

/-- Membership test `fingerprint in self._entries`. -/
def hasKey (l : List L0CacheEntry) (fp : Nat) : Bool :=
  l.any (fun e => e.fingerprint == fp)

/-- The dict value at key `fp` (at most one under the dict discipline). -/
def findKey : List L0CacheEntry → Nat → Option L0CacheEntry
  | [], _ => none
  | e :: l, fp => if e.fingerprint == fp then some e else findKey l fp

/-- Statement `del self._entries[fp]` / `self._entries.pop(fp, None)`: removing the
entries stored under key `fp`. -/
def removeKey : List L0CacheEntry → Nat → List L0CacheEntry
  | [], _ => []
  | e :: l, fp => if e.fingerprint == fp then removeKey l fp else e :: removeKey l fp

/-- In-place field update of the dict-resident entry at key `fp`. -/
def updateKey (l : List L0CacheEntry) (fp : Nat)
    (u : L0CacheEntry → L0CacheEntry) : List L0CacheEntry :=
  l.map (fun e => if e.fingerprint == fp then u e else e)

/-! ### `automation/cache.py` — operations -/

/-- The scan loop of `L0Cache.lookup`: running best entry and best
distance, initial best distance `hash_threshold + 1`. -/
def lookupGo (c : L0Cache) (fp : Nat) :
    List L0CacheEntry → Option L0CacheEntry → Nat → Option L0CacheEntry
  | [], best, _ => best
  | e :: rest, best, bestDist =>
    if e.succeeded = false then lookupGo c fp rest best bestDist
    else if c.max_reuse ≤ e.hit_count then lookupGo c fp rest best bestDist
    else if hamming_distance fp e.fingerprint < bestDist then
      lookupGo c fp rest (some e) (hamming_distance fp e.fingerprint)
    else lookupGo c fp rest best bestDist

/-- Method `L0Cache.lookup`: closest eligible entry within the hamming
threshold, or none. -/
def L0Cache.lookup (c : L0Cache) (fp : Nat) : Option L0CacheEntry :=
  lookupGo c fp c.entries none (c.hash_threshold + 1)

/-- Method `L0Cache.record_hit`: increments `hit_count` and stamps `last_step`
on the entry (an in-place mutation of the dict-resident entry, modelled
as an update at the entry ''s key). -/
def L0Cache.record_hit (c : L0Cache) (fp : Nat) (step : Nat) : L0Cache :=
  { c with entries := updateKey c.entries fp (fun e => { e with hit_count := e.hit_count + 1, last_step := step }) }

/-- Fresh entry built by `L0Cache.store`. -/
def freshEntry (fp : Nat) (actions : List PredictionParsed)
    (post_fp : Option Nat) (step : Nat) : L0CacheEntry :=
  { fingerprint := fp, actions := actions, post_fingerprint := post_fp,
    hit_count := 0, last_step := step, succeeded := true }

/-- First key of minimal `last_step` (Python `min(dict, key=...)` keeps
the earlier element on ties). -/
def oldestFpGo : List L0CacheEntry → Option (Nat × Nat) → Option Nat
  | [], best => best.map (fun p => p.1)
  | e :: rest, none => oldestFpGo rest (some (e.fingerprint, e.last_step))
  | e :: rest, some (bfp, bstep) =>
    if e.last_step < bstep then oldestFpGo rest (some (e.fingerprint, e.last_step))
    else oldestFpGo rest (some (bfp, bstep))

/-- The capacity-eviction step at the top of `L0Cache.store`: when the
dict is at capacity and the key is new, drop the entry whose
`last_step` is smallest.  (On an empty dict at `max_entries = 0` the
Python `min` would raise; the embedding returns the dict unchanged in
that unreachable corner.) -/
def evictStep (c : L0Cache) (fp : Nat) : List L0CacheEntry :=
  if c.max_entries ≤ c.entries.length && !(hasKey c.entries fp) then
    match oldestFpGo c.entries none with
    | some ofp => removeKey c.entries ofp
    | none => c.entries
  else c.entries

/-- The dict assignment `self._entries[fingerprint] = L0CacheEntry(...)`:
overwrite in place when the key exists, append otherwise. -/
def upsertStep (l : List L0CacheEntry) (fp : Nat) (fresh : L0CacheEntry) :
    List L0CacheEntry :=
  if hasKey l fp then updateKey l fp (fun _ => fresh) else l ++ [fresh]

/-- Method `L0Cache.store`: capacity eviction of the oldest-used entry when the
key is new and the cache is full, then upsert of the fresh entry. -/
def L0Cache.store (c : L0Cache) (fp : Nat) (actions : List PredictionParsed)
    (post_fp : Option Nat) (step : Nat) : L0Cache :=
  { c with entries := upsertStep (evictStep c fp) fp (freshEntry fp actions post_fp step) }

/-- Method `L0Cache.evict`: removal by the entry ''s fingerprint key. -/
def L0Cache.evict (c : L0Cache) (fp : Nat) : L0Cache :=
  { c with entries := removeKey c.entries fp }

/-- Method `L0Cache.mark_failed`: sets `succeeded := false` on the entry. -/
def L0Cache.mark_failed (c : L0Cache) (fp : Nat) : L0Cache :=
  { c with entries := updateKey c.entries fp (fun e => { e with succeeded := false }) }

/-! ### Characterization of `lookup` (C2) -/

/-- Eligibility condition of the `lookup` scan. -/
def eligible (c : L0Cache) (e : L0CacheEntry) : Prop :=
  e.succeeded = true ∧ e.hit_count < c.max_reuse

instance (c : L0Cache) (e : L0CacheEntry) : Decidable (eligible c e) := by
  unfold eligible; infer_instance

/-! ### `automation/router.py` -/

/-- Action types that `L0Router.should_cache_actions` refuses to cache. -/
def uncacheableActions : List String := ["finished", "call_user", "error_env"]

/-- Method `L0Router.should_cache_actions`. -/
def should_cache_actions (actions : List PredictionParsed) : Bool :=
  if actions.isEmpty then false
  else actions.all (fun a => !(uncacheableActions.contains a.action_type))

/-- Method `L0Router.verify_and_commit` over the router ''s cache: mark failed on
execution failure, evict on an unchanged post fingerprint, otherwise
record the hit.  Returns the updated cache and the verification result. -/
def verify_and_commit (c : L0Cache) (entry : L0CacheEntry) (post_fp : Option Nat)
    (step : Nat) (success : Bool) : L0Cache × Bool :=
  if success = false then (c.mark_failed entry.fingerprint, false)
  else if post_fp == some entry.fingerprint then (c.evict entry.fingerprint, false)
  else (c.record_hit entry.fingerprint step, true)

/-- Method `L0Router.record`: store only cacheable action lists under a present
fingerprint. -/
def record (c : L0Cache) (fp : Option Nat) (actions : List PredictionParsed)
    (post_fp : Option Nat) (step : Nat) : L0Cache :=
  match fp with
  | none => c
  | some f => if should_cache_actions actions then c.store f actions post_fp step else c

/-- Example cache for the `store_spec` witness: a full two-entry cache. -/
def storeWitnessCache : L0Cache :=
  { hash_threshold := 0, max_reuse := 3, max_entries := 2,
    entries := [freshEntry 100 [] (some 200) 1, freshEntry 200 [] (some 300) 2] }

/-- Example cache for the re-eligibility witness: one entry under key 1000. -/
def oneEntryCache : L0Cache :=
  { entries := [freshEntry 1000 [] (some 2000) 1] }

/-! ### `supervisor/state.py`

`StatusEnum` lives in `iphoneclaw/types.py`; its constructors are
reconstructed from their uses in `state.py` and `agent/loop.py`
(INIT, RUNNING, PAUSE, HANG, ERROR, END, CALL_USER, USER_STOPPED). -/

inductive StatusEnum
  | INIT
  | RUNNING
  | PAUSE
  | HANG
  | ERROR
  | END
  | CALL_USER
  | USER_STOPPED
  deriving Repr, DecidableEq

/-- Dataclass `WorkerControl`; the lock serializes access, so the pure
embedding treats each method as an atomic state transformer. -/
structure WorkerControl where
  status : StatusEnum := StatusEnum.INIT
  paused : Bool := false
  stopped : Bool := false
  injected : List String := []
  deriving Repr, DecidableEq

/-- Initial control state of a fresh worker. -/
def initControl : WorkerControl := {}

def WorkerControl.pause (c : WorkerControl) : WorkerControl :=
  let c := { c with paused := true }
  if c.status = StatusEnum.RUNNING then { c with status := StatusEnum.PAUSE } else c

def WorkerControl.resume (c : WorkerControl) : WorkerControl :=
  let c := { c with paused := false }
  if c.status = StatusEnum.PAUSE ∨ c.status = StatusEnum.HANG then
    { c with status := StatusEnum.RUNNING }
  else c

def WorkerControl.stop (c : WorkerControl) : WorkerControl :=
  { c with stopped := true, status := StatusEnum.USER_STOPPED }

def WorkerControl.set_status (c : WorkerControl) (s : StatusEnum) : WorkerControl :=
  if c.stopped then { c with status := StatusEnum.USER_STOPPED }
  else if c.paused ∧ s = StatusEnum.RUNNING then c
  else { c with status := s }

def WorkerControl.inject (c : WorkerControl) (text : String) : WorkerControl :=
  { c with injected := c.injected ++ [text] }

/-- Method `pop_injected`: oldest injected guidance string (if any) and the
control state with that string removed. -/
def WorkerControl.pop_injected (c : WorkerControl) : Option String × WorkerControl :=
  match c.injected with
  | [] => (none, c)
  | t :: rest => (some t, { c with injected := rest })

/-- One supervisory operation on `WorkerControl`. -/
inductive CtrlOp
  | pauseOp
  | resumeOp
  | stopOp
  | setStatusOp (s : StatusEnum)
  | injectOp (text : String)
  | popInjectedOp
  deriving Repr, DecidableEq

/-- Apply one operation (for `pop_injected`, keep the resulting state). -/
def ctrlStep (c : WorkerControl) : CtrlOp → WorkerControl
  | CtrlOp.pauseOp => c.pause
  | CtrlOp.resumeOp => c.resume
  | CtrlOp.stopOp => c.stop
  | CtrlOp.setStatusOp s => c.set_status s
  | CtrlOp.injectOp t => c.inject t
  | CtrlOp.popInjectedOp => c.pop_injected.2

/-- Apply a sequence of operations in order. -/
def ctrlRun (c : WorkerControl) (ops : List CtrlOp) : WorkerControl :=
  ops.foldl ctrlStep c

/-! ### `supervisor/hub.py`

`SupervisorEvent` lives in `iphoneclaw/types.py`: `{type, data, ts}`.
The `data` dict payload is modelled as an association list of strings
and the `time.time()` stamp as an explicit clock argument of `publish`. -/

structure SupervisorEvent where
  type : String
  data : List (String × String) := []
  ts : Nat := 0
  deriving Repr, DecidableEq

/-- One subscriber queue: `queue.Queue(maxsize=1000)`.  A queue is full
when `0 < maxsize ≤ len` (Python treats `maxsize <= 0` as unbounded). -/
structure EventQueue where
  maxsize : Nat := 1000
  items : List SupervisorEvent := []
  deriving Repr, DecidableEq

/-- Method `put_nowait` wrapped in `try/except` as `publish` uses it: enqueue
when there is room, silently drop the event when the queue is full. -/
def putNowait (q : EventQueue) (e : SupervisorEvent) : EventQueue :=
  if 0 < q.maxsize ∧ q.maxsize ≤ q.items.length then q
  else { q with items := q.items ++ [e] }

/-- Class `SupervisorHub`: subscriber queues in registration order plus the
last-known status snapshot. -/
structure SupervisorHub where
  subs : List EventQueue := []
  last_status : List (String × String) := [("status", "init")]
  deriving Repr, DecidableEq

/-- Method `SupervisorHub.subscribe`: register a fresh bounded queue. -/
def SupervisorHub.subscribe (h : SupervisorHub) : EventQueue × SupervisorHub :=
  let q : EventQueue := { maxsize := 1000, items := [] }
  (q, { h with subs := h.subs ++ [q] })

/-- Method `SupervisorHub.publish`: stamp the event and offer it to every
currently registered queue with `put_nowait`, dropping on full queues. -/
def SupervisorHub.publish (h : SupervisorHub) (type_ : String)
    (data : List (String × String)) (ts : Nat) : SupervisorHub :=
  { h with subs := h.subs.map (fun q => putNowait q { type := type_, data := data, ts := ts }) }

/-- Example hub for the `publish_spec` witness: one full one-slot queue
and one empty queue. -/
def twoQueueHub : SupervisorHub :=
  { subs := [{ maxsize := 1, items := [{ type := "status" }] },
      { maxsize := 1000, items := [] }] }

/-! ### `agent/conversation.py` -/

structure ConversationItem where
  role : String
  text : String
  ts : Nat := 0
  meta : List (String × String) := []
  deriving Repr, DecidableEq

/-- Role of the item at index `i` (none when out of range; the source
only indexes in range). -/
def roleAt (items : List ConversationItem) (i : Nat) : Option String :=
  (items[i]?).map (fun it => it.role)

/-- Whether the item at index `i` is an assistant turn. -/
def isAssistantAt (items : List ConversationItem) (i : Nat) : Bool :=
  roleAt items i == some "assistant"

/-- The backward scan of `_tail_items_by_rounds`: walk `i` from
`len(items) - 1` down to 0 counting assistant turns; stop at the index
where the count reaches `tail_rounds`; 0 when it never does. -/
def tailScanGo (items : List ConversationItem) (tailRounds : Nat) :
    Nat → Nat → Nat
  | 0, _ => 0
  | i + 1, seen =>
    if isAssistantAt items i then
      if tailRounds ≤ seen + 1 then i else tailScanGo items tailRounds i (seen + 1)
    else tailScanGo items tailRounds i seen

/-- Method `ConversationStore._tail_items_by_rounds`: suffix from the scanned
start index, shifted back by one when the start is an assistant turn
immediately preceded by a user turn. -/
def tail_items_by_rounds (items : List ConversationItem) (tailRounds : Nat) :
    List ConversationItem :=
  let start0 := tailScanGo items tailRounds items.length 0
  let start :=
    if 0 < start0 ∧ roleAt items start0 = some "assistant" ∧
        roleAt items (start0 - 1) = some "user" then
      start0 - 1
    else start0
  if items.isEmpty then [] else items.drop start

/-- Indices of assistant turns below `i`, in increasing order. -/
def posList (items : List ConversationItem) (i : Nat) : List Nat :=
  (List.range i).filter (fun j => isAssistantAt items j)

/-- All assistant-turn indices of the log. -/
def assistantIdxs (items : List ConversationItem) : List Nat :=
  posList items items.length

/-- The spec ''s description of `tailByAssistantRounds(n)`: the suffix
starting at the n-th-last assistant turn (the whole log when fewer than
`n` assistant turns exist), shifted back by one item when that turn is
immediately preceded by a user turn. -/
def tailByAssistantRoundsSpec (items : List ConversationItem) (n : Nat) :
    List ConversationItem :=
  let idxs := assistantIdxs items
  if idxs.length < n then items
  else
    let s0 := idxs.getD (idxs.length - n) 0
    let s := if 0 < s0 ∧ roleAt items (s0 - 1) = some "user" then s0 - 1 else s0
    items.drop s

/-- The five-turn example log from the spec. -/
def exampleLog5 : List ConversationItem :=
  [{ role := "system", text := "sys" }, { role := "user", text := "u1" },
    { role := "assistant", text := "a1" }, { role := "user", text := "u2" },
    { role := "assistant", text := "a2" }]

/-! ### `agent/loop.py` — one cycle of `Worker.run`

The loop body (lines 110-250) is embedded as a pure step function.
Collaborator calls (screen capture, image resize, model invocation,
action execution, recorder writes) are opaque effects: their outputs
that influence control flow arrive through `CycleExt`, and each call is
recorded as an event in the cycle trace, in source order.  The embedding
covers cycles in which collaborators return normally; the one
exception path the source itself produces (an empty
`parsed_predictions` making `[0]` raise, caught by the outer guard that
sets `ERROR` and terminates) is the `exitError` outcome.  The pause
gate is a blocking poll: with no concurrent supervisory call the cycle
makes no progress, which `blockedPaused` models. -/

/-- The configuration fields of `Config` that `Worker.run` consults. -/
structure Config where
  max_loop_count : Nat := 200
  hang_on_finished : Bool := true
  hang_on_call_user : Bool := true
  loop_interval_ms : Nat := 500
  deriving Repr, DecidableEq

/-- Collaborator outputs of one cycle: the model ''s raw reply text and
its parsed prediction list. -/
structure CycleExt where
  prediction : String := ""
  parsed : List PredictionParsed := []
  deriving Repr, DecidableEq

/-- The loop-local state threaded between cycles. -/
structure LoopState where
  control : WorkerControl := {}
  conversation : List ConversationItem := []
  step : Nat := 0
  parse_err_streak : Nat := 0
  deriving Repr, DecidableEq

/-- Observable effects of one cycle, in source order.  The cache-layer
events (`computeFingerprint`, `tryCache`, `executeCachedActions`,
`verifyCommit`) exist so the routing protocol is expressible; whether
`Worker.run` ever emits them is exactly what C1 asks. -/
inductive LoopEv
  | capture
  | computeFingerprint
  | tryCache
  | executeCachedActions
  | verifyCommit
  | invokeModel
  | activateApp
  | executeAction
  | sleepEv
  | hubSetStatus (s : StatusEnum)
  | hubPublish (type_ : String)
  deriving Repr, DecidableEq

/-- How one cycle ends. -/
inductive CycleOutcome
  | exitStopped
  | blockedPaused
  | exitMaxLoop
  | exitError
  | exitEnd
  | exitCallUser
  | continued
  deriving Repr, DecidableEq

/-- Events of the injected-guidance block (`if injected:` is Python
truthiness: an empty popped string publishes nothing). -/
def injEvents (inj : Option String) : List LoopEv :=
  match inj with
  | some txt => if txt.isEmpty then [] else [LoopEv.hubPublish "conversation"]
  | none => []

/-- Conversation effect of the injected-guidance block. -/
def injConv (conv : List ConversationItem) (inj : Option String) :
    List ConversationItem :=
  match inj with
  | some txt =>
    if txt.isEmpty then conv
    else
      conv ++
        [{ role := "user", text := "[Supervisor Guidance]\n" ++ txt, meta := [("injected", "true")] }]
  | none => conv

/-- The shared tail of the cycle after action parsing: terminal actions
(`finished`, `call_user`) hang or end the run per configuration; any
other action is executed against the foregrounded app and the loop
continues as `RUNNING` after the inter-step sleep. -/
def afterParse (cfg : Config) (control : WorkerControl)
    (conv : List ConversationItem) (step streak : Nat) (pred : PredictionParsed)
    (evs : List LoopEv) : LoopState × CycleOutcome × List LoopEv :=
  if pred.action_type = "finished" then
    if cfg.hang_on_finished then
      ({ control := (control.set_status StatusEnum.HANG).pause, conversation := conv,
          step := step, parse_err_streak := streak },
        CycleOutcome.continued,
        evs ++ [LoopEv.hubSetStatus StatusEnum.HANG, LoopEv.hubPublish "hang"])
    else
      ({ control := control.set_status StatusEnum.END, conversation := conv,
          step := step, parse_err_streak := streak },
        CycleOutcome.exitEnd, evs ++ [LoopEv.hubSetStatus StatusEnum.END])
  else if pred.action_type = "call_user" then
    if cfg.hang_on_call_user then
      ({ control := (control.set_status StatusEnum.HANG).pause, conversation := conv,
          step := step, parse_err_streak := streak },
        CycleOutcome.continued,
        evs ++ [LoopEv.hubSetStatus StatusEnum.HANG, LoopEv.hubPublish "hang"])
    else
      ({ control := control.set_status StatusEnum.CALL_USER, conversation := conv,
          step := step, parse_err_streak := streak },
        CycleOutcome.exitCallUser, evs ++ [LoopEv.hubSetStatus StatusEnum.CALL_USER])
  else
    ({ control := control.set_status StatusEnum.RUNNING, conversation := conv,
        step := step, parse_err_streak := streak },
      CycleOutcome.continued,
      evs ++ [LoopEv.activateApp, LoopEv.executeAction,
        LoopEv.hubSetStatus StatusEnum.RUNNING, LoopEv.sleepEv])

/-- The cycle from the capture step on: capture, resize, build messages
from the conversation tail, invoke the model, log the assistant reply,
then act on the first parsed prediction. -/
def cycleCore (cfg : Config) (control1 : WorkerControl)
    (conv1 : List ConversationItem) (step1 streak0 : Nat) (ext : CycleExt)
    (evs1 : List LoopEv) : LoopState × CycleOutcome × List LoopEv :=
  let evs3 := evs1 ++ [LoopEv.capture, LoopEv.invokeModel, LoopEv.hubPublish "conversation"]
  let conv2 := conv1 ++ [{ role := "assistant", text := ext.prediction }]
  match ext.parsed with
  | [] =>
    ({ control := control1.set_status StatusEnum.ERROR, conversation := conv2,
        step := step1, parse_err_streak := streak0 },
      CycleOutcome.exitError,
      evs3 ++ [LoopEv.hubSetStatus StatusEnum.ERROR, LoopEv.hubPublish "error"])
  | pred :: _ =>
    if pred.action_type = "error_env" then
      if 3 ≤ streak0 + 1 then
        ({ control := (control1.set_status StatusEnum.HANG).pause, conversation := conv2,
            step := step1, parse_err_streak := streak0 + 1 },
          CycleOutcome.continued,
          evs3 ++ [LoopEv.hubPublish "error", LoopEv.hubSetStatus StatusEnum.HANG,
            LoopEv.hubPublish "hang"])
      else
        afterParse cfg control1 conv2 step1 (streak0 + 1) pred
          (evs3 ++ [LoopEv.hubPublish "error"])
    else
      afterParse cfg control1 conv2 step1 0 pred evs3

/-- One iteration of the `while True` body of `Worker.run`. -/
def runCycle (cfg : Config) (st : LoopState) (ext : CycleExt) :
    LoopState × CycleOutcome × List LoopEv :=
  if st.control.stopped then
    ({ st with control := st.control.set_status StatusEnum.USER_STOPPED },
      CycleOutcome.exitStopped, [LoopEv.hubSetStatus StatusEnum.USER_STOPPED])
  else if st.control.paused then
    (st, CycleOutcome.blockedPaused, [])
  else
    let pop := st.control.pop_injected
    let step1 := st.step + 1
    if cfg.max_loop_count < step1 then
      ({ control := pop.2.set_status StatusEnum.ERROR,
          conversation := injConv st.conversation pop.1, step := step1,
          parse_err_streak := st.parse_err_streak },
        CycleOutcome.exitMaxLoop,
        injEvents pop.1 ++ [LoopEv.hubSetStatus StatusEnum.ERROR])
    else
      cycleCore cfg pop.2 (injConv st.conversation pop.1) step1
        st.parse_err_streak ext (injEvents pop.1)

/-- Default configuration used in the concrete loop cycles below. -/
def cfgEx : Config := {}

/-- A fresh running loop state. -/
def stEx : LoopState := { control := { status := StatusEnum.RUNNING } }

/-- A model reply whose first parsed action is an ordinary click. -/
def extEx : CycleExt :=
  { prediction := "click", parsed := [{ action_type := "click" }] }

/-- A running loop state two parse errors deep. -/
def stErr : LoopState :=
  { control := { status := StatusEnum.RUNNING }, parse_err_streak := 2 }

/-- A model reply whose first parsed action is the parse-error marker. -/
def extErr : CycleExt :=
  { prediction := "err", parsed := [{ action_type := "error_env" }] }

theorem popcountAux_zero (fuel : Nat) : popcountAux fuel 0 = 0 := by
  cases fuel <;> simp [popcountAux]

theorem popcountAux_fuel (fuel : Nat) :
    ∀ fuel' n, n ≤ fuel → n ≤ fuel' → popcountAux fuel n = popcountAux fuel' n := by
  induction fuel with
  | zero =>
    intro fuel' n hn _
    have : n = 0 := Nat.le_zero.mp hn
    subst this
    simp [popcountAux_zero, popcountAux]
  | succ fuel ih =>
    intro fuel' n hn hn'
    by_cases h0 : n = 0
    · subst h0; simp [popcountAux_zero]
    · have hpos : 0 < n := Nat.pos_of_ne_zero h0
      obtain ⟨f', rfl⟩ : ∃ f', fuel' = f' + 1 := by
        cases fuel' with
        | zero => exact absurd (Nat.le_zero.mp hn') h0
        | succ f' => exact ⟨f', rfl⟩
      simp only [popcountAux, if_neg h0]
      have hdiv : n / 2 ≤ fuel := by
        have h1 : n / 2 < n := Nat.div_lt_self hpos (by omega)
        omega
      have hdiv' : n / 2 ≤ f' := by
        have h1 : n / 2 < n := Nat.div_lt_self hpos (by omega)
        omega
      rw [ih f' (n / 2) hdiv hdiv']

/-- Unfolding equation for `popcount`. -/
theorem popcount_rec (n : Nat) :
    popcount n = if n = 0 then 0 else popcount (n / 2) + n % 2 := by
  by_cases h0 : n = 0
  · subst h0; simp [popcount, popcountAux]
  · obtain ⟨m, rfl⟩ : ∃ m, n = m + 1 := ⟨n - 1, by omega⟩
    simp only [popcount, popcountAux, if_neg h0]
    rw [popcountAux_fuel m ((m + 1) / 2) ((m + 1) / 2) (by omega) (Nat.le_refl _)]

theorem popcount_zero : popcount 0 = 0 := by simp [popcount, popcountAux]

theorem popcount_le_of_lt_two_pow : ∀ (k n : Nat), n < 2 ^ k → popcount n ≤ k := by
  intro k
  induction k with
  | zero =>
    intro n hn
    have : n = 0 := by omega
    subst this; simp [popcount_zero]
  | succ k ih =>
    intro n hn
    by_cases h0 : n = 0
    · subst h0; simp [popcount_zero]
    · rw [popcount_rec, if_neg h0]
      have hdiv : n / 2 < 2 ^ k := by
        have : n < 2 ^ k * 2 := by
          have := hn; rw [Nat.pow_succ] at this; omega
        omega
      have hmod : n % 2 ≤ 1 := by omega
      have := ih (n / 2) hdiv
      omega

theorem popcount_eq_zero_iff (n : Nat) : popcount n = 0 ↔ n = 0 := by
  constructor
  · induction n using Nat.strong_induction_on with
    | _ n ihn =>
      intro h
      by_cases h0 : n = 0
      · exact h0
      · rw [popcount_rec, if_neg h0] at h
        have hmod : n % 2 = 0 := by omega
        have hdivpc : popcount (n / 2) = 0 := by omega
        have hpos : 0 < n := Nat.pos_of_ne_zero h0
        have hdiv0 : n / 2 = 0 :=
          ihn (n / 2) (Nat.div_lt_self hpos (by omega)) hdivpc
        omega
  · intro h; subst h; exact popcount_zero

/-- C9: for 64-bit fingerprints, Hamming distance is symmetric, zero on
the diagonal, and bounded by 64. -/
theorem hamming_distance_props (a b : Nat) (ha : a < 2 ^ 64) (hb : b < 2 ^ 64) :
    hamming_distance a b = hamming_distance b a ∧
    hamming_distance a a = 0 ∧
    hamming_distance a b ≤ 64 := by
  refine ⟨?_, ?_, ?_⟩
  · unfold hamming_distance
    rw [Nat.xor_comm]
  · unfold hamming_distance
    rw [Nat.xor_self]
    exact popcount_zero
  · unfold hamming_distance
    exact popcount_le_of_lt_two_pow 64 (a ^^^ b) (Nat.xor_lt_two_pow ha hb)

/-- Concrete instance of `hamming_distance_props` at `a = 1000`, `b = 1001`. -/
theorem hamming_distance_props_witness :
    (1000 : Nat) < 2 ^ 64 ∧ (1001 : Nat) < 2 ^ 64 ∧
    (hamming_distance 1000 1001 = hamming_distance 1001 1000 ∧
      hamming_distance 1000 1000 = 0 ∧ hamming_distance 1000 1001 ≤ 64) :=
  ⟨by norm_num, by norm_num,
    hamming_distance_props 1000 1001 (by norm_num) (by norm_num)⟩

theorem lookupGo_char (c : L0Cache) (fp : Nat) :
    ∀ (l : List L0CacheEntry) (best : Option L0CacheEntry) (bd : Nat),
      (∀ b, best = some b → eligible c b ∧ hamming_distance fp b.fingerprint = bd ∧
        bd ≤ c.hash_threshold) →
      (best = none → bd = c.hash_threshold + 1) →
      ((lookupGo c fp l best bd = none ∧ best = none ∧
          ∀ e ∈ l, eligible c e → ¬ hamming_distance fp e.fingerprint < bd) ∨
        (∃ r, lookupGo c fp l best bd = some r ∧ eligible c r ∧
          hamming_distance fp r.fingerprint ≤ c.hash_threshold ∧
          (r ∈ l ∨ best = some r) ∧
          (∀ e ∈ l, eligible c e →
            hamming_distance fp r.fingerprint ≤ hamming_distance fp e.fingerprint) ∧
          (∀ b, best = some b →
            hamming_distance fp r.fingerprint ≤ hamming_distance fp b.fingerprint))) := by
  intro l
  induction l with
  | nil =>
    intro best bd hsome hnone
    cases best with
    | none => exact Or.inl ⟨rfl, rfl, by intro e he; cases he⟩
    | some b =>
      obtain ⟨he, hd, hth⟩ := hsome b rfl
      refine Or.inr ⟨b, rfl, he, by omega, Or.inr rfl, ?_, ?_⟩
      · intro e he'
        cases he'
      · intro b' hb'
        cases hb'
        omega
  | cons e l ih =>
    intro best bd hsome hnone
    by_cases hsucc : e.succeeded = false
    · -- skipped: failed entry
      have helig : ¬ eligible c e := by
        intro ⟨h1, _⟩; rw [hsucc] at h1; cases h1
      simp only [lookupGo, if_pos hsucc]
      rcases ih best bd hsome hnone with ⟨h1, h2, h3⟩ | ⟨r, hr, helr, hth, hmem, hmin, hminb⟩
      · refine Or.inl ⟨h1, h2, ?_⟩
        intro e' he' helige'
        rcases List.mem_cons.mp he' with rfl | he'
        · exact absurd helige' helig
        · exact h3 e' he' helige'
      · refine Or.inr ⟨r, hr, helr, hth, ?_, ?_, hminb⟩
        · rcases hmem with h | h
          · exact Or.inl (List.mem_cons_of_mem _ h)
          · exact Or.inr h
        · intro e' he' helige'
          rcases List.mem_cons.mp he' with rfl | he'
          · exact absurd helige' helig
          · exact hmin e' he' helige'
    · by_cases hreuse : c.max_reuse ≤ e.hit_count
      · -- skipped: reuse budget exhausted
        have helig : ¬ eligible c e := by
          intro ⟨_, h2⟩; omega
        simp only [lookupGo, if_neg hsucc, if_pos hreuse]
        rcases ih best bd hsome hnone with ⟨h1, h2, h3⟩ | ⟨r, hr, helr, hth, hmem, hmin, hminb⟩
        · refine Or.inl ⟨h1, h2, ?_⟩
          intro e' he' helige'
          rcases List.mem_cons.mp he' with rfl | he'
          · exact absurd helige' helig
          · exact h3 e' he' helige'
        · refine Or.inr ⟨r, hr, helr, hth, ?_, ?_, hminb⟩
          · rcases hmem with h | h
            · exact Or.inl (List.mem_cons_of_mem _ h)
            · exact Or.inr h
          · intro e' he' helige'
            rcases List.mem_cons.mp he' with rfl | he'
            · exact absurd helige' helig
            · exact hmin e' he' helige'
      · have helig : eligible c e := ⟨by revert hsucc; cases e.succeeded <;> simp, by omega⟩
        by_cases hlt : hamming_distance fp e.fingerprint < bd
        · -- new best
          simp only [lookupGo, if_neg hsucc, if_neg hreuse, if_pos hlt]
          have hbd' : hamming_distance fp e.fingerprint ≤ c.hash_threshold := by
            cases best with
            | none => have := hnone rfl; omega
            | some b => obtain ⟨_, _, h3⟩ := hsome b rfl; omega
          rcases ih (some e) (hamming_distance fp e.fingerprint)
              (by intro b hb; cases hb; exact ⟨helig, rfl, hbd'⟩)
              (by intro h; cases h) with
            ⟨_, h2, _⟩ | ⟨r, hr, helr, hth, hmem, hmin, hminb⟩
          · cases h2
          · refine Or.inr ⟨r, hr, helr, hth, ?_, ?_, ?_⟩
            · rcases hmem with h | h
              · exact Or.inl (List.mem_cons_of_mem _ h)
              · cases h; exact Or.inl (List.mem_cons_self _ _)
            · intro e' he' helige'
              rcases List.mem_cons.mp he' with rfl | he'
              · exact hminb _ rfl
              · exact hmin e' he' helige'
            · intro b hb
              have hre := hminb _ rfl
              obtain ⟨_, hdb, _⟩ := hsome b hb
              omega
        · -- kept old best
          simp only [lookupGo, if_neg hsucc, if_neg hreuse, if_neg hlt]
          rcases ih best bd hsome hnone with ⟨h1, h2, h3⟩ | ⟨r, hr, helr, hth, hmem, hmin, hminb⟩
          · refine Or.inl ⟨h1, h2, ?_⟩
            intro e' he' helige'
            rcases List.mem_cons.mp he' with rfl | he'
            · exact hlt
            · exact h3 e' he' helige'
          · refine Or.inr ⟨r, hr, helr, hth, ?_, ?_, hminb⟩
            · rcases hmem with h | h
              · exact Or.inl (List.mem_cons_of_mem _ h)
              · exact Or.inr h
            · intro e' he' helige'
              rcases List.mem_cons.mp he' with rfl | he'
              · have hbr : hamming_distance fp r.fingerprint ≤ bd := by
                  cases best with
                  | none => have := hnone rfl; omega
                  | some b =>
                    have := hminb b rfl
                    obtain ⟨_, hdb, _⟩ := hsome b rfl
                    omega
                omega
              · exact hmin e' he' helige'

/-- Helper: the full characterization of a single `lookup`. -/
theorem lookup_char (c : L0Cache) (fp : Nat) :
    (c.lookup fp = none ↔
      ∀ e ∈ c.entries, e.succeeded = true → e.hit_count < c.max_reuse →
        c.hash_threshold < hamming_distance fp e.fingerprint) ∧
    (∀ r, c.lookup fp = some r →
      r ∈ c.entries ∧ r.succeeded = true ∧ r.hit_count < c.max_reuse ∧
      hamming_distance fp r.fingerprint ≤ c.hash_threshold ∧
      ∀ e ∈ c.entries, e.succeeded = true → e.hit_count < c.max_reuse →
        hamming_distance fp r.fingerprint ≤ hamming_distance fp e.fingerprint) := by
  have hchar := lookupGo_char c fp c.entries none (c.hash_threshold + 1)
    (by intro b hb; cases hb) (by intro _; rfl)
  constructor
  · constructor
    · intro hnone e he hs hr
      rcases hchar with ⟨_, _, h3⟩ | ⟨r, hr', _⟩
      · have := h3 e he ⟨hs, hr⟩
        omega
      · rw [L0Cache.lookup] at hnone
        rw [hnone] at hr'
        cases hr'
    · intro hall
      rcases hchar with ⟨h1, _, _⟩ | ⟨r, hr', helr, hth, hmem, _, _⟩
      · exact h1
      · rcases hmem with hm | hm
        · obtain ⟨hs, hc⟩ := helr
          have := hall r hm hs hc
          omega
        · cases hm
  · intro r hr
    rcases hchar with ⟨h1, _, _⟩ | ⟨r', hr', helr, hth, hmem, hmin, _⟩
    · rw [L0Cache.lookup] at hr
      rw [hr] at h1
      cases h1
    · rw [L0Cache.lookup] at hr
      rw [hr] at hr'
      cases hr'
      rcases hmem with hm | hm
      · exact ⟨hm, helr.1, helr.2, hth, fun e he hs hc => hmin e he ⟨hs, hc⟩⟩
      · cases hm

/-- After `record_hit`, every entry stored under key `fp` carries a hit
count one higher than before; entries under other keys are unchanged. -/
theorem record_hit_entries (c : L0Cache) (fp step : Nat) :
    (c.record_hit fp step).entries =
      c.entries.map (fun e => if e.fingerprint == fp then { e with hit_count := e.hit_count + 1, last_step := step } else e) := rfl

/-- C2: `lookup` returns none exactly when no eligible entry
(`succeeded` and hit count below `max_reuse`) lies within
`hash_threshold`; any returned entry is eligible, within threshold and
of minimal Hamming distance among eligible entries.  With
`max_reuse = 2`, two `record_hit` calls on the key exhaust it, so a
lookup of that fingerprint returns none when every other entry is
ineligible or beyond the threshold. -/
theorem lookup_spec :
    (∀ (c : L0Cache) (fp : Nat),
      (c.lookup fp = none ↔
        ∀ e ∈ c.entries, e.succeeded = true → e.hit_count < c.max_reuse →
          c.hash_threshold < hamming_distance fp e.fingerprint) ∧
      (∀ r, c.lookup fp = some r →
        r ∈ c.entries ∧ r.succeeded = true ∧ r.hit_count < c.max_reuse ∧
        hamming_distance fp r.fingerprint ≤ c.hash_threshold ∧
        ∀ e ∈ c.entries, e.succeeded = true → e.hit_count < c.max_reuse →
          hamming_distance fp r.fingerprint ≤ hamming_distance fp e.fingerprint)) ∧
    (∀ (c : L0Cache) (fp s1 s2 : Nat), c.max_reuse = 2 →
      (∀ e ∈ ((c.record_hit fp s1).record_hit fp s2).entries,
        e.fingerprint ≠ fp → e.succeeded = true → e.hit_count < 2 →
          c.hash_threshold < hamming_distance fp e.fingerprint) →
      ((c.record_hit fp s1).record_hit fp s2).lookup fp = none) := by
  constructor
  · exact lookup_char
  · intro c fp s1 s2 hmr hothers
    set c2 := (c.record_hit fp s1).record_hit fp s2 with hc2
    have hsame : c2.max_reuse = 2 := by
      simp [hc2, L0Cache.record_hit, hmr]
    have hth : c2.hash_threshold = c.hash_threshold := by
      simp [hc2, L0Cache.record_hit]
    apply (lookup_char c2 fp).1.mpr
    intro e he hs hc
    by_cases hkey : e.fingerprint = fp
    · -- the exhausted key: its hit count has been bumped twice
      exfalso
      have hent : e ∈ (updateKey (updateKey c.entries fp (fun x => { x with hit_count := x.hit_count + 1, last_step := s1 })) fp (fun x => { x with hit_count := x.hit_count + 1, last_step := s2 })) := he
      rw [updateKey, updateKey] at hent
      rw [List.map_map] at hent
      obtain ⟨e0, _, heq⟩ := List.mem_map.mp hent
      by_cases h0 : e0.fingerprint == fp
      · simp only [Function.comp, h0, if_pos] at heq
        have : e.hit_count = e0.hit_count + 2 := by
          rw [← heq]
        rw [hsame] at hc
        omega
      · simp only [Function.comp, h0] at heq
        rw [if_neg (by simp_all), if_neg (by simp_all)] at heq
        rw [← heq] at hkey
        simp at h0
        exact h0 hkey
    · rw [hth]
      exact hothers e he hkey hs (by rw [← hsame]; exact hc)

/-- Witness for `lookup_spec`: a cache holding fingerprint 1000 with
`max_reuse = 2`; after two recorded hits the lookup misses. -/
theorem lookup_spec_witness :
    (({ hash_threshold := 5, max_reuse := 2, max_entries := 256,
        entries := [freshEntry 1000 [] (some 2000) 1] : L0Cache }.record_hit 1000 2).record_hit 1000 3).lookup 1000 = none :=
  lookup_spec.2
    { hash_threshold := 5, max_reuse := 2, max_entries := 256,
      entries := [freshEntry 1000 [] (some 2000) 1] } 1000 2 3 rfl (by decide)

theorem findKey_updateKey (l : List L0CacheEntry) (fp : Nat)
    (u : L0CacheEntry → L0CacheEntry)
    (hu : ∀ e, e.fingerprint = fp → (u e).fingerprint = fp) :
    findKey (updateKey l fp u) fp = (findKey l fp).map u := by
  induction l with
  | nil => rfl
  | cons e l ih =>
    by_cases h : e.fingerprint = fp
    · have hbeq : (e.fingerprint == fp) = true := by simp [h]
      have hbeq' : ((u e).fingerprint == fp) = true := by simp [hu e h]
      simp [findKey, updateKey, hbeq, hbeq']
    · have hbeq : (e.fingerprint == fp) = false := by simp [h]
      simpa [findKey, updateKey, hbeq] using ih

theorem findKey_removeKey (l : List L0CacheEntry) (fp : Nat) :
    findKey (removeKey l fp) fp = none := by
  induction l with
  | nil => rfl
  | cons e l ih =>
    by_cases h : e.fingerprint = fp
    · simpa [removeKey, h] using ih
    · have hbeq : (e.fingerprint == fp) = false := by simp [h]
      simpa [removeKey, findKey, hbeq] using ih

/-- C3: `verify_and_commit` marks the entry failed and reports false on
execution failure; evicts and reports false when the post fingerprint is
present and exactly equal to the entry ''s fingerprint; otherwise bumps
the hit count, stamps the step, and reports true.  The hypothesis states
that `entry` is the cache-resident entry under its own key, which is how
the router obtains it from `try_cache`. -/
theorem verify_and_commit_spec (c : L0Cache) (entry : L0CacheEntry)
    (post_fp : Option Nat) (step : Nat) (success : Bool)
    (hmem : findKey c.entries entry.fingerprint = some entry) :
    (success = false →
      (verify_and_commit c entry post_fp step success).2 = false ∧
      findKey (verify_and_commit c entry post_fp step success).1.entries entry.fingerprint =
        some { entry with succeeded := false }) ∧
    (success = true → post_fp = some entry.fingerprint →
      (verify_and_commit c entry post_fp step success).2 = false ∧
      findKey (verify_and_commit c entry post_fp step success).1.entries entry.fingerprint = none) ∧
    (success = true → post_fp ≠ some entry.fingerprint →
      (verify_and_commit c entry post_fp step success).2 = true ∧
      findKey (verify_and_commit c entry post_fp step success).1.entries entry.fingerprint =
        some { entry with hit_count := entry.hit_count + 1, last_step := step }) := by
  refine ⟨?_, ?_, ?_⟩
  · intro hf
    subst hf
    constructor
    · rfl
    · show findKey (updateKey c.entries entry.fingerprint (fun e => { e with succeeded := false })) entry.fingerprint = _
      rw [findKey_updateKey c.entries entry.fingerprint (fun e => { e with succeeded := false }) (fun e he => he), hmem]
      rfl
  · intro hs hpost
    subst hs
    subst hpost
    have hcond : ((some entry.fingerprint : Option Nat) == some entry.fingerprint) = true := by simp
    constructor
    · simp [verify_and_commit, hcond]
    · simp only [verify_and_commit, hcond]
      show findKey (c.evict entry.fingerprint).entries entry.fingerprint = none
      rw [L0Cache.evict]
      exact findKey_removeKey c.entries entry.fingerprint
  · intro hs hpost
    subst hs
    have hcond : (post_fp == some entry.fingerprint) = false := by
      simp [hpost]
    constructor
    · simp [verify_and_commit, hcond]
    · simp only [verify_and_commit, hcond, Bool.false_eq_true, if_false, reduceIte]
      show findKey (updateKey c.entries entry.fingerprint (fun e => { e with hit_count := e.hit_count + 1, last_step := step })) entry.fingerprint = _
      rw [findKey_updateKey c.entries entry.fingerprint (fun e => { e with hit_count := e.hit_count + 1, last_step := step }) (fun e he => he), hmem]
      rfl

/-- Witness for `verify_and_commit_spec`: a one-entry cache, successful
replay with a changed screen commits the hit. -/
theorem verify_and_commit_spec_witness :
    (verify_and_commit { entries := [freshEntry 1000 [] (some 2000) 1] }
        (freshEntry 1000 [] (some 2000) 1) (some 3000) 7 true).2 = true ∧
    findKey (verify_and_commit { entries := [freshEntry 1000 [] (some 2000) 1] }
        (freshEntry 1000 [] (some 2000) 1) (some 3000) 7 true).1.entries 1000 =
      some { freshEntry 1000 [] (some 2000) 1 with hit_count := 1, last_step := 7 } :=
  (verify_and_commit_spec { entries := [freshEntry 1000 [] (some 2000) 1] }
      (freshEntry 1000 [] (some 2000) 1) (some 3000) 7 true (by decide)).2.2
    rfl (by decide)

/-! ### Characterization of `store` (C4) -/

theorem findKey_of_hasKey (l : List L0CacheEntry) (fp : Nat)
    (h : hasKey l fp = true) : ∃ e, findKey l fp = some e := by
  induction l with
  | nil => cases h
  | cons e l ih =>
    by_cases hk : (e.fingerprint == fp) = true
    · exact ⟨e, by simp [findKey, hk]⟩
    · have hkf : (e.fingerprint == fp) = false := by
        revert hk; cases e.fingerprint == fp <;> simp
      have h' : hasKey l fp = true := by
        simpa [hasKey, hkf] using h
      obtain ⟨e', he'⟩ := ih h'
      exact ⟨e', by simp [findKey, hkf, he']⟩

theorem hasKey_removeKey (l : List L0CacheEntry) (fp ofp : Nat)
    (h : hasKey l fp = false) : hasKey (removeKey l ofp) fp = false := by
  induction l with
  | nil => rfl
  | cons e l ih =>
    have he : (e.fingerprint == fp) = false := by
      revert h; simp [hasKey]; intro h1 _; simp [h1]
    have h' : hasKey l fp = false := by
      revert h; simp [hasKey]
    by_cases ho : (e.fingerprint == ofp) = true
    · simpa [removeKey, ho] using ih h'
    · have hof : (e.fingerprint == ofp) = false := by
        revert ho; cases e.fingerprint == ofp <;> simp
      simp [removeKey, hof, hasKey, he]
      have := ih h'
      simpa [hasKey] using this

theorem findKey_append_of_not_hasKey (l : List L0CacheEntry) (fp : Nat)
    (e : L0CacheEntry) (h : hasKey l fp = false) (he : e.fingerprint = fp) :
    findKey (l ++ [e]) fp = some e := by
  induction l with
  | nil => simp [findKey, he]
  | cons a l ih =>
    have ha : (a.fingerprint == fp) = false := by
      revert h; simp [hasKey]; intro h1 _; simp [h1]
    have h' : hasKey l fp = false := by
      revert h; simp [hasKey]
    simpa [findKey, ha] using ih h'

theorem removeKey_length_le (l : List L0CacheEntry) (fp : Nat) :
    (removeKey l fp).length ≤ l.length := by
  induction l with
  | nil => simp [removeKey]
  | cons e l ih =>
    by_cases h : (e.fingerprint == fp) = true
    · simp [removeKey, h]; omega
    · have hf : (e.fingerprint == fp) = false := by
        revert h; cases e.fingerprint == fp <;> simp
      simp [removeKey, hf]; omega

theorem removeKey_length_lt (l : List L0CacheEntry) (fp : Nat)
    (e : L0CacheEntry) (he : e ∈ l) (hk : e.fingerprint = fp) :
    (removeKey l fp).length < l.length := by
  induction l with
  | nil => cases he
  | cons a l ih =>
    by_cases h : (a.fingerprint == fp) = true
    · have := removeKey_length_le l fp
      simp [removeKey, h]; omega
    · have hf : (a.fingerprint == fp) = false := by
        revert h; cases a.fingerprint == fp <;> simp
      rcases List.mem_cons.mp he with rfl | he'
      · rw [hk] at hf; simp at hf
      · have := ih he'
        simp [removeKey, hf]; omega

theorem oldestFpGo_char (l : List L0CacheEntry) :
    ∀ (bfp bstep : Nat),
      ∃ ofp st, oldestFpGo l (some (bfp, bstep)) = some ofp ∧
        ((ofp = bfp ∧ st = bstep) ∨ ∃ e ∈ l, e.fingerprint = ofp ∧ e.last_step = st) ∧
        st ≤ bstep ∧ ∀ e ∈ l, st ≤ e.last_step := by
  induction l with
  | nil =>
    intro bfp bstep
    exact ⟨bfp, bstep, rfl, Or.inl ⟨rfl, rfl⟩, Nat.le_refl _, by intro e he; cases he⟩
  | cons e l ih =>
    intro bfp bstep
    by_cases hlt : e.last_step < bstep
    · obtain ⟨ofp, st, heq, horig, hle, hall⟩ := ih e.fingerprint e.last_step
      refine ⟨ofp, st, ?_, ?_, ?_, ?_⟩
      · simpa [oldestFpGo, hlt] using heq
      · rcases horig with ⟨h1, h2⟩ | ⟨e', he', h1, h2⟩
        · exact Or.inr ⟨e, List.mem_cons_self _ _, h1 ▸ rfl, h2 ▸ rfl⟩
        · exact Or.inr ⟨e', List.mem_cons_of_mem _ he', h1, h2⟩
      · omega
      · intro e' he'
        rcases List.mem_cons.mp he' with rfl | he'
        · exact hle
        · exact hall e' he'
    · obtain ⟨ofp, st, heq, horig, hle, hall⟩ := ih bfp bstep
      refine ⟨ofp, st, ?_, ?_, hle, ?_⟩
      · simpa [oldestFpGo, hlt] using heq
      · rcases horig with h | ⟨e', he', h1, h2⟩
        · exact Or.inl h
        · exact Or.inr ⟨e', List.mem_cons_of_mem _ he', h1, h2⟩
      · intro e' he'
        rcases List.mem_cons.mp he' with rfl | he'
        · omega
        · exact hall e' he'

theorem findKey_upsertStep (l : List L0CacheEntry) (fp : Nat)
    (fresh : L0CacheEntry) (hf : fresh.fingerprint = fp) :
    findKey (upsertStep l fp fresh) fp = some fresh := by
  unfold upsertStep
  by_cases h : hasKey l fp = true
  · obtain ⟨e, he⟩ := findKey_of_hasKey l fp h
    rw [if_pos h, findKey_updateKey l fp (fun _ => fresh) (fun _ _ => hf), he]
    rfl
  · have hff : hasKey l fp = false := by
      revert h; cases hasKey l fp <;> simp
    rw [if_neg h]
    exact findKey_append_of_not_hasKey l fp fresh hff hf

theorem findKey_mem (l : List L0CacheEntry) (fp : Nat) (e : L0CacheEntry)
    (h : findKey l fp = some e) : e ∈ l := by
  induction l with
  | nil => cases h
  | cons a l ih =>
    by_cases ha : (a.fingerprint == fp) = true
    · simp only [findKey, ha, if_true, Option.some.injEq] at h
      exact h ▸ List.mem_cons_self _ _
    · have haf : (a.fingerprint == fp) = false := by
        revert ha; cases a.fingerprint == fp <;> simp
      simp only [findKey, haf, Bool.false_eq_true, if_false] at h
      exact List.mem_cons_of_mem _ (ih h)

/-- C4: `store` upserts the exact key, keeps the size within
`max_entries`, never evicts on an overwrite of an existing key, and at
capacity with a new key evicts exactly the entry of minimal
`last_step`; concretely, storing 100,200,300 at steps 1,2,3 into a
3-entry cache and then 400 at step 4 leaves keys 200,300,400. -/
theorem store_spec (c : L0Cache) (fp : Nat) (acts : List PredictionParsed)
    (pfp : Option Nat) (step : Nat) :
    (findKey (c.store fp acts pfp step).entries fp = some (freshEntry fp acts pfp step)) ∧
    (1 ≤ c.max_entries → c.entries.length ≤ c.max_entries →
      (c.store fp acts pfp step).entries.length ≤ c.max_entries) ∧
    (hasKey c.entries fp = true →
      (c.store fp acts pfp step).entries =
        updateKey c.entries fp (fun _ => freshEntry fp acts pfp step)) ∧
    (hasKey c.entries fp = false → c.max_entries ≤ c.entries.length → c.entries ≠ [] →
      ∃ ofp, (∃ e ∈ c.entries, e.fingerprint = ofp ∧
          ∀ e2 ∈ c.entries, e.last_step ≤ e2.last_step) ∧
        (c.store fp acts pfp step).entries =
          removeKey c.entries ofp ++ [freshEntry fp acts pfp step]) ∧
    ((((({ hash_threshold := 0, max_reuse := 3, max_entries := 3, entries := [] :
            L0Cache }.store 100 [] (some 200) 1).store 200 [] (some 300) 2).store
            300 [] (some 400) 3).store 400 [] (some 500) 4).entries.map
          (fun e => e.fingerprint) = [200, 300, 400]) := by
  have hfreshfp : (freshEntry fp acts pfp step).fingerprint = fp := rfl
  have h_over : hasKey c.entries fp = true →
      (c.store fp acts pfp step).entries =
        updateKey c.entries fp (fun _ => freshEntry fp acts pfp step) := by
    intro hk
    have hev : evictStep c fp = c.entries := by
      simp [evictStep, hk]
    show upsertStep (evictStep c fp) fp (freshEntry fp acts pfp step) = _
    rw [hev]
    simp [upsertStep, hk]
  have h_evict : hasKey c.entries fp = false → c.max_entries ≤ c.entries.length →
      c.entries ≠ [] →
      ∃ ofp, (∃ e ∈ c.entries, e.fingerprint = ofp ∧
          ∀ e2 ∈ c.entries, e.last_step ≤ e2.last_step) ∧
        (c.store fp acts pfp step).entries =
          removeKey c.entries ofp ++ [freshEntry fp acts pfp step] := by
    intro hk hfull hne
    obtain ⟨e0, rest, hE⟩ : ∃ e0 rest, c.entries = e0 :: rest := by
      cases hc : c.entries with
      | nil => exact absurd hc hne
      | cons e0 rest => exact ⟨e0, rest, rfl⟩
    obtain ⟨ofp, st, heq, horig, hle, hall⟩ :=
      oldestFpGo_char rest e0.fingerprint e0.last_step
    have holdest : oldestFpGo c.entries none = some ofp := by
      rw [hE]
      exact heq
    have hev : evictStep c fp = removeKey c.entries ofp := by
      simp [evictStep, hk, hfull, holdest]
    have hkey2 : hasKey (removeKey c.entries ofp) fp = false :=
      hasKey_removeKey c.entries fp ofp hk
    refine ⟨ofp, ?_, ?_⟩
    · rcases horig with ⟨h1, h2⟩ | ⟨e', he', h1, h2⟩
      · refine ⟨e0, by rw [hE]; exact List.mem_cons_self _ _, h1.symm ▸ rfl, ?_⟩
        intro e2 he2
        rw [hE] at he2
        rcases List.mem_cons.mp he2 with rfl | he2
        · exact Nat.le_refl _
        · have := hall e2 he2
          omega
      · refine ⟨e', by rw [hE]; exact List.mem_cons_of_mem _ he', h1, ?_⟩
        intro e2 he2
        rw [hE] at he2
        rcases List.mem_cons.mp he2 with rfl | he2
        · omega
        · have := hall e2 he2
          omega
    · show upsertStep (evictStep c fp) fp (freshEntry fp acts pfp step) = _
      rw [hev]
      simp [upsertStep, hkey2]
  refine ⟨?_, ?_, h_over, h_evict, by decide⟩
  · exact findKey_upsertStep (evictStep c fp) fp (freshEntry fp acts pfp step) rfl
  · intro hmax hlen
    by_cases hk : hasKey c.entries fp = true
    · rw [h_over hk]
      simp only [updateKey, List.length_map]
      exact hlen
    · have hkf : hasKey c.entries fp = false := by
        revert hk; cases hasKey c.entries fp <;> simp
      by_cases hfull : c.max_entries ≤ c.entries.length
      · have hne : c.entries ≠ [] := by
          intro h0
          rw [h0] at hfull
          simp at hfull
          omega
        obtain ⟨ofp, ⟨e, he, hke, _⟩, heq⟩ := h_evict hkf hfull hne
        rw [heq]
        rw [List.length_append]
        have := removeKey_length_lt c.entries ofp e he hke
        simp only [List.length_cons, List.length_nil]
        omega
      · have hev : evictStep c fp = c.entries := by
          simp [evictStep, hfull]
        show (upsertStep (evictStep c fp) fp (freshEntry fp acts pfp step)).length ≤ _
        rw [hev]
        simp only [upsertStep, hkf, Bool.false_eq_true, if_false, List.length_append]
        simp only [List.length_cons, List.length_nil]
        omega

/-- Witness for `store_spec`: overwriting key 100 in a full two-entry
cache keeps the size at two. -/
theorem store_spec_witness :
    (1 : Nat) ≤ storeWitnessCache.max_entries ∧
    (storeWitnessCache.store 100 [] (some 400) 3).entries.length ≤
      storeWitnessCache.max_entries :=
  ⟨by decide,
    (store_spec storeWitnessCache 100 [] (some 400) 3).2.1 (by decide) (by decide)⟩

/-- C10: after `mark_failed` on the entry for `f`, a later `store` of the
same fingerprint unconditionally installs a fresh entry with
`succeeded = true` and `hit_count = 0`, and the key is again returned by
`lookup` (the returned minimal-distance entry carries fingerprint `f`). -/
theorem mark_failed_then_store_reeligible (c : L0Cache) (fp : Nat)
    (acts : List PredictionParsed) (pfp : Option Nat) (step : Nat)
    (hmr : 0 < c.max_reuse) :
    findKey ((c.mark_failed fp).store fp acts pfp step).entries fp =
      some (freshEntry fp acts pfp step) ∧
    (freshEntry fp acts pfp step).succeeded = true ∧
    (freshEntry fp acts pfp step).hit_count = 0 ∧
    ∃ r, ((c.mark_failed fp).store fp acts pfp step).lookup fp = some r ∧
      r.fingerprint = fp := by
  set c2 := (c.mark_failed fp).store fp acts pfp step with hc2
  have hfind : findKey c2.entries fp = some (freshEntry fp acts pfp step) :=
    findKey_upsertStep (evictStep (c.mark_failed fp) fp) fp _ rfl
  have hmemf : freshEntry fp acts pfp step ∈ c2.entries :=
    findKey_mem c2.entries fp _ hfind
  have hmr2 : c2.max_reuse = c.max_reuse := rfl
  have hdist0 : hamming_distance fp (freshEntry fp acts pfp step).fingerprint = 0 := by
    show hamming_distance fp fp = 0
    unfold hamming_distance
    rw [Nat.xor_self]
    exact popcount_zero
  refine ⟨hfind, rfl, rfl, ?_⟩
  cases hlook : c2.lookup fp with
  | none =>
    exfalso
    have := (lookup_char c2 fp).1.mp hlook (freshEntry fp acts pfp step) hmemf rfl
      (by rw [hmr2]; exact hmr)
    rw [hdist0] at this
    omega
  | some r =>
    obtain ⟨_, _, _, _, hmin⟩ := (lookup_char c2 fp).2 r hlook
    have := hmin (freshEntry fp acts pfp step) hmemf rfl (by rw [hmr2]; exact hmr)
    rw [hdist0] at this
    have hz : hamming_distance fp r.fingerprint = 0 := by omega
    unfold hamming_distance at hz
    rw [popcount_eq_zero_iff] at hz
    exact ⟨r, rfl, (Nat.xor_eq_zero.mp hz).symm⟩

/-- Witness for `mark_failed_then_store_reeligible` on a one-entry cache. -/
theorem mark_failed_then_store_reeligible_witness :
    (0 : Nat) < oneEntryCache.max_reuse ∧
    findKey ((oneEntryCache.mark_failed 1000).store 1000 [] (some 2000) 5).entries 1000 =
      some (freshEntry 1000 [] (some 2000) 5) :=
  ⟨by decide,
    (mark_failed_then_store_reeligible oneEntryCache 1000 [] (some 2000) 5 (by decide)).1⟩

/-- Every operation preserves the stopped-terminal configuration. -/
theorem ctrlStep_stopped (c : WorkerControl) (op : CtrlOp)
    (hs : c.stopped = true) (hst : c.status = StatusEnum.USER_STOPPED) :
    (ctrlStep c op).stopped = true ∧ (ctrlStep c op).status = StatusEnum.USER_STOPPED := by
  cases op with
  | pauseOp =>
    simp [ctrlStep, WorkerControl.pause, hst, hs]
  | resumeOp =>
    simp [ctrlStep, WorkerControl.resume, hst, hs]
  | stopOp =>
    simp [ctrlStep, WorkerControl.stop]
  | setStatusOp s =>
    simp [ctrlStep, WorkerControl.set_status, hs]
  | injectOp t =>
    simp [ctrlStep, WorkerControl.inject, hs, hst]
  | popInjectedOp =>
    cases hinj : c.injected with
    | nil => simp [ctrlStep, WorkerControl.pop_injected, hinj, hs, hst]
    | cons t rest => simp [ctrlStep, WorkerControl.pop_injected, hinj, hs, hst]

/-- Every operation preserves the invariant
`stopped = true → status = USER_STOPPED`. -/
theorem ctrlStep_inv (c : WorkerControl) (op : CtrlOp)
    (hinv : c.stopped = true → c.status = StatusEnum.USER_STOPPED) :
    (ctrlStep c op).stopped = true → (ctrlStep c op).status = StatusEnum.USER_STOPPED := by
  by_cases hs : c.stopped = true
  · intro _
    exact (ctrlStep_stopped c op hs (hinv hs)).2
  · have hsf : c.stopped = false := by
      revert hs; cases c.stopped <;> simp
    cases op with
    | pauseOp =>
      intro h
      exfalso
      revert h
      simp only [ctrlStep, WorkerControl.pause]
      by_cases hr : c.status = StatusEnum.RUNNING <;> simp [hr, hsf]
    | resumeOp =>
      intro h
      exfalso
      revert h
      simp only [ctrlStep, WorkerControl.resume]
      by_cases hr : c.status = StatusEnum.PAUSE ∨ c.status = StatusEnum.HANG <;>
        simp [hr, hsf]
    | stopOp =>
      intro _
      simp [ctrlStep, WorkerControl.stop]
    | setStatusOp s =>
      intro h
      exfalso
      revert h
      simp only [ctrlStep, WorkerControl.set_status, hsf]
      by_cases hp : c.paused = true ∧ s = StatusEnum.RUNNING <;> simp [hp, hsf]
    | injectOp t =>
      intro h
      exfalso
      revert h
      simp [ctrlStep, WorkerControl.inject, hsf]
    | popInjectedOp =>
      intro h
      exfalso
      revert h
      cases hinj : c.injected with
      | nil => simp [ctrlStep, WorkerControl.pop_injected, hinj, hsf]
      | cons t rest => simp [ctrlStep, WorkerControl.pop_injected, hinj, hsf]

/-- C5: once stopped, `USER_STOPPED` is terminal.  After `stop()` every
further operation sequence leaves `status = USER_STOPPED` (in particular
a subsequent `set_status RUNNING`), and in every state reachable from
the initial control state, `stopped = true` implies
`status = USER_STOPPED`. -/
theorem stopped_terminal :
    (∀ (c : WorkerControl) (ops : List CtrlOp),
      (ctrlRun c.stop ops).status = StatusEnum.USER_STOPPED ∧
      (ctrlRun c.stop ops).stopped = true) ∧
    (∀ (c : WorkerControl),
      ((c.stop).set_status StatusEnum.RUNNING).status = StatusEnum.USER_STOPPED) ∧
    (∀ ops : List CtrlOp,
      (ctrlRun initControl ops).stopped = true →
      (ctrlRun initControl ops).status = StatusEnum.USER_STOPPED) := by
  have hrun : ∀ (ops : List CtrlOp) (c : WorkerControl),
      c.stopped = true → c.status = StatusEnum.USER_STOPPED →
      (ctrlRun c ops).status = StatusEnum.USER_STOPPED ∧ (ctrlRun c ops).stopped = true := by
    intro ops
    induction ops with
    | nil => intro c hs hst; exact ⟨hst, hs⟩
    | cons op ops ih =>
      intro c hs hst
      have := ctrlStep_stopped c op hs hst
      exact ih (ctrlStep c op) this.1 this.2
  refine ⟨?_, ?_, ?_⟩
  · intro c ops
    exact hrun ops c.stop rfl rfl
  · intro c
    simp [WorkerControl.stop, WorkerControl.set_status]
  · have hreach : ∀ (ops : List CtrlOp) (c : WorkerControl),
        (c.stopped = true → c.status = StatusEnum.USER_STOPPED) →
        (ctrlRun c ops).stopped = true →
        (ctrlRun c ops).status = StatusEnum.USER_STOPPED := by
      intro ops
      induction ops with
      | nil => intro c hinv; exact hinv
      | cons op ops ih =>
        intro c hinv
        exact ih (ctrlStep c op) (ctrlStep_inv c op hinv)
    intro ops
    exact hreach ops initControl (by intro h; cases h)

/-- Witness for `stopped_terminal`: concrete run stop → set RUNNING →
resume still reports `USER_STOPPED`. -/
theorem stopped_terminal_witness :
    (ctrlRun initControl.stop
      [CtrlOp.setStatusOp StatusEnum.RUNNING, CtrlOp.resumeOp]).status =
        StatusEnum.USER_STOPPED ∧
    (ctrlRun initControl [CtrlOp.pauseOp, CtrlOp.stopOp]).stopped = true ∧
    (ctrlRun initControl [CtrlOp.pauseOp, CtrlOp.stopOp]).status =
        StatusEnum.USER_STOPPED :=
  ⟨(stopped_terminal.1 initControl
      [CtrlOp.setStatusOp StatusEnum.RUNNING, CtrlOp.resumeOp]).1,
    by decide,
    stopped_terminal.2.2 [CtrlOp.pauseOp, CtrlOp.stopOp] (by decide)⟩

/-- C8: `publish` keeps the subscriber registry intact; every queue with
room receives the event, a full queue is left unchanged (the event is
silently dropped for it), and each queue ''s outcome depends only on its
own fullness — delivery to other subscribers still occurs.  Totality of
`publish` is the embedding of "never raises". -/
theorem publish_spec (h : SupervisorHub) (t : String)
    (d : List (String × String)) (ts : Nat) :
    ((h.publish t d ts).subs.length = h.subs.length) ∧
    (∀ (i : Nat) (q : EventQueue), h.subs[i]? = some q →
      ((0 < q.maxsize ∧ q.maxsize ≤ q.items.length →
          (h.publish t d ts).subs[i]? = some q) ∧
        (q.maxsize = 0 ∨ q.items.length < q.maxsize →
          (h.publish t d ts).subs[i]? =
            some { q with items := q.items ++ [{ type := t, data := d, ts := ts }] }))) := by
  constructor
  · simp [SupervisorHub.publish]
  · intro i q hq
    have hmap : (h.publish t d ts).subs[i]? =
        some (putNowait q { type := t, data := d, ts := ts }) := by
      show (h.subs.map (fun q => putNowait q { type := t, data := d, ts := ts }))[i]? = _
      rw [List.getElem?_map, hq]
      rfl
    constructor
    · intro hfull
      rw [hmap, putNowait, if_pos hfull]
    · intro hroom
      have hnot : ¬ (0 < q.maxsize ∧ q.maxsize ≤ q.items.length) := by
        rcases hroom with h0 | hlt
        · intro ⟨h1, _⟩; omega
        · intro ⟨_, h2⟩; omega
      rw [hmap, putNowait, if_neg hnot]

/-- Witness for `publish_spec`: publishing drops on the full first queue
and still delivers to the empty second queue. -/
theorem publish_spec_witness :
    (twoQueueHub.publish "error" [] 5).subs[0]? =
      some { maxsize := 1, items := [{ type := "status" }] } ∧
    (twoQueueHub.publish "error" [] 5).subs[1]? =
      some { maxsize := 1000, items := [{ type := "error", data := [], ts := 5 }] } :=
  ⟨((publish_spec twoQueueHub "error" [] 5).2 0
      { maxsize := 1, items := [{ type := "status" }] } rfl).1 (by decide),
    ((publish_spec twoQueueHub "error" [] 5).2 1
      { maxsize := 1000, items := [] } rfl).2 (by decide)⟩

theorem posList_succ (items : List ConversationItem) (i : Nat) :
    posList items (i + 1) =
      if isAssistantAt items i then posList items i ++ [i] else posList items i := by
  by_cases h : isAssistantAt items i
  · simp [posList, List.range_succ, List.filter_append, h]
  · simp only [posList, List.range_succ, List.filter_append]
    have hf : isAssistantAt items i = false := by
      revert h; cases isAssistantAt items i <;> simp
    simp [hf]

theorem getD_concat_length (l : List Nat) (a : Nat) :
    (l ++ [a]).getD l.length 0 = a := by
  induction l with
  | nil => rfl
  | cons x l ih =>
    show (x :: (l ++ [a])).getD (l.length + 1) 0 = a
    rw [List.getD_cons_succ]
    exact ih

theorem getD_append_left (l : List Nat) (a : Nat) (k : Nat) (h : k < l.length) :
    (l ++ [a]).getD k 0 = l.getD k 0 := by
  induction l generalizing k with
  | nil => simp at h
  | cons x l ih =>
    cases k with
    | zero => rfl
    | succ k =>
      have h' : k < l.length := by simp at h; omega
      simpa [List.getD_cons_succ] using ih k h'

theorem tailScanGo_spec (items : List ConversationItem) (n : Nat) :
    ∀ (i seen : Nat), seen + 1 ≤ n →
      tailScanGo items n i seen =
        if n ≤ (posList items i).length + seen then
          (posList items i).getD ((posList items i).length + seen - n) 0
        else 0 := by
  intro i
  induction i with
  | zero =>
    intro seen hseen
    have h1 : posList items 0 = [] := by simp [posList]
    rw [h1]
    simp only [List.length_nil, Nat.zero_add]
    rw [if_neg (by omega)]
    rfl
  | succ i ih =>
    intro seen hseen
    by_cases hA : isAssistantAt items i
    · have hpos : posList items (i + 1) = posList items i ++ [i] := by
        rw [posList_succ, if_pos hA]
      have hlen : (posList items (i + 1)).length = (posList items i).length + 1 := by
        rw [hpos]; simp
      by_cases hc : n ≤ seen + 1
      · have hlhs : tailScanGo items n (i + 1) seen = i := by
          simp [tailScanGo, hA, hc]
        rw [hlhs]
        rw [if_pos (by rw [hlen]; omega)]
        rw [show (posList items (i + 1)).length + seen - n = (posList items i).length by
          rw [hlen]; omega]
        rw [hpos]
        exact (getD_concat_length (posList items i) i).symm
      · have hseen' : seen + 1 + 1 ≤ n := by omega
        have hlhs : tailScanGo items n (i + 1) seen = tailScanGo items n i (seen + 1) := by
          simp [tailScanGo, hA, hc]
        rw [hlhs, ih (seen + 1) hseen']
        by_cases hcc : n ≤ (posList items i).length + (seen + 1)
        · rw [if_pos hcc, if_pos (by rw [hlen]; omega)]
          rw [show (posList items (i + 1)).length + seen - n =
              (posList items i).length + (seen + 1) - n by rw [hlen]; omega]
          rw [hpos]
          rw [getD_append_left (posList items i) i _ (by omega)]
        · rw [if_neg hcc, if_neg (by rw [hlen]; omega)]
    · have hpos : posList items (i + 1) = posList items i := by
        rw [posList_succ]
        have hf : isAssistantAt items i = false := by
          revert hA; cases isAssistantAt items i <;> simp
        simp [hf]
      have hlhs : tailScanGo items n (i + 1) seen = tailScanGo items n i seen := by
        simp [tailScanGo, hA]
      rw [hlhs, ih seen hseen, hpos]

/-- C6: for every log and every `n ≥ 1`, `_tail_items_by_rounds`
computes exactly the view the spec describes: the suffix from the
n-th-last assistant turn (whole log when fewer than `n` assistant turns
exist), shifted back by one when a user turn immediately precedes it. -/
theorem tail_rounds_spec (items : List ConversationItem) (n : Nat) (hn : 1 ≤ n) :
    tail_items_by_rounds items n = tailByAssistantRoundsSpec items n := by
  have hgo := tailScanGo_spec items n items.length 0 (by omega)
  have hposid : posList items items.length = assistantIdxs items := rfl
  by_cases hcnt : (assistantIdxs items).length < n
  · -- fewer than n assistant turns: whole log
    have hstart : tailScanGo items n items.length 0 = 0 := by
      rw [hgo, hposid, if_neg (by omega)]
    simp only [tail_items_by_rounds, tailByAssistantRoundsSpec]
    rw [if_pos hcnt, hstart]
    have hnc : ¬(0 < 0 ∧ roleAt items 0 = some "assistant" ∧
        roleAt items (0 - 1) = some "user") := fun h => absurd h.1 (by omega)
    rw [if_neg hnc]
    cases items with
    | nil => rfl
    | cons a l => simp
  · -- at least n assistant turns
    have hle : n ≤ (assistantIdxs items).length := by omega
    have hklt : (assistantIdxs items).length - n < (assistantIdxs items).length := by
      omega
    have hgetd : (assistantIdxs items).getD ((assistantIdxs items).length - n) 0 =
        (assistantIdxs items)[(assistantIdxs items).length - n] := by
      rw [List.getD, List.get?_eq_getElem?, List.getElem?_eq_getElem hklt]
      rfl
    have hmem : (assistantIdxs items).getD ((assistantIdxs items).length - n) 0 ∈
        assistantIdxs items := by
      rw [hgetd]
      exact List.getElem_mem hklt
    have hmf : (assistantIdxs items).getD ((assistantIdxs items).length - n) 0 <
        items.length ∧
        isAssistantAt items
          ((assistantIdxs items).getD ((assistantIdxs items).length - n) 0) = true := by
      simpa [assistantIdxs, posList] using hmem
    have hassist : roleAt items
        ((assistantIdxs items).getD ((assistantIdxs items).length - n) 0) =
        some "assistant" := by
      have hb := hmf.2
      simp only [isAssistantAt] at hb
      exact eq_of_beq hb
    have hlenpos : 0 < items.length := by
      have := hmf.1
      omega
    have hne : items.isEmpty = false := by
      cases items with
      | nil => simp at hlenpos
      | cons a l => rfl
    have hstart : tailScanGo items n items.length 0 =
        (assistantIdxs items).getD ((assistantIdxs items).length - n) 0 := by
      rw [hgo, hposid, if_pos (by omega)]
      simp
    simp only [tail_items_by_rounds, tailByAssistantRoundsSpec]
    rw [if_neg hcnt, hstart]
    rw [if_neg (show ¬(items.isEmpty = true) by simp [hne])]
    by_cases hu : 0 < (assistantIdxs items).getD ((assistantIdxs items).length - n) 0 ∧
        roleAt items
          ((assistantIdxs items).getD ((assistantIdxs items).length - n) 0 - 1) =
          some "user"
    · rw [if_pos ⟨hu.1, hassist, hu.2⟩, if_pos hu]
    · rw [if_neg (fun h => hu ⟨h.1, h.2.2⟩), if_neg hu]

/-- Witness for `tail_rounds_spec` on the spec ''s example: one round
keeps `[user2, assistant2]`, two rounds keep everything after `system`. -/
theorem tail_rounds_spec_witness :
    tail_items_by_rounds exampleLog5 1 = tailByAssistantRoundsSpec exampleLog5 1 ∧
    tail_items_by_rounds exampleLog5 1 =
      [{ role := "user", text := "u2" }, { role := "assistant", text := "a2" }] ∧
    tail_items_by_rounds exampleLog5 2 =
      [{ role := "user", text := "u1" }, { role := "assistant", text := "a1" },
        { role := "user", text := "u2" }, { role := "assistant", text := "a2" }] :=
  ⟨tail_rounds_spec exampleLog5 1 (by decide), by decide, by decide⟩

theorem mem_injEvents (inj : Option String) (ev : LoopEv)
    (h : ev ∈ injEvents inj) : ev = LoopEv.hubPublish "conversation" := by
  cases inj with
  | none => cases h
  | some txt =>
    by_cases he : txt.isEmpty
    · rw [injEvents, if_pos he] at h
      cases h
    · rw [injEvents, if_neg he] at h
      rcases List.mem_cons.mp h with rfl | h
      · rfl
      · cases h

theorem afterParse_streak (cfg : Config) (control : WorkerControl)
    (conv : List ConversationItem) (step streak : Nat) (pred : PredictionParsed)
    (evs : List LoopEv) :
    (afterParse cfg control conv step streak pred evs).1.parse_err_streak = streak := by
  unfold afterParse
  split_ifs <;> rfl

theorem afterParse_trace (cfg : Config) (control : WorkerControl)
    (conv : List ConversationItem) (step streak : Nat) (pred : PredictionParsed)
    (evs : List LoopEv) :
    ∃ tail, (afterParse cfg control conv step streak pred evs).2.2 = evs ++ tail ∧
      LoopEv.tryCache ∉ tail ∧ LoopEv.computeFingerprint ∉ tail ∧
      LoopEv.capture ∉ tail ∧ LoopEv.invokeModel ∉ tail := by
  unfold afterParse
  split_ifs
  · exact ⟨_, rfl, by decide, by decide, by decide, by decide⟩
  · exact ⟨_, rfl, by decide, by decide, by decide, by decide⟩
  · exact ⟨_, rfl, by decide, by decide, by decide, by decide⟩
  · exact ⟨_, rfl, by decide, by decide, by decide, by decide⟩
  · exact ⟨_, rfl, by decide, by decide, by decide, by decide⟩

theorem cycleCore_nil (cfg : Config) (control1 : WorkerControl)
    (conv1 : List ConversationItem) (step1 streak0 : Nat) (ext : CycleExt)
    (evs1 : List LoopEv) (h : ext.parsed = []) :
    cycleCore cfg control1 conv1 step1 streak0 ext evs1 =
      ({ control := control1.set_status StatusEnum.ERROR,
          conversation := conv1 ++ [{ role := "assistant", text := ext.prediction }],
          step := step1, parse_err_streak := streak0 },
        CycleOutcome.exitError,
        (evs1 ++ [LoopEv.capture, LoopEv.invokeModel, LoopEv.hubPublish "conversation"]) ++
          [LoopEv.hubSetStatus StatusEnum.ERROR, LoopEv.hubPublish "error"]) := by
  unfold cycleCore
  rw [h]

theorem cycleCore_cons (cfg : Config) (control1 : WorkerControl)
    (conv1 : List ConversationItem) (step1 streak0 : Nat) (ext : CycleExt)
    (evs1 : List LoopEv) (pred : PredictionParsed) (rest : List PredictionParsed)
    (h : ext.parsed = pred :: rest) :
    cycleCore cfg control1 conv1 step1 streak0 ext evs1 =
      (if pred.action_type = "error_env" then
        if 3 ≤ streak0 + 1 then
          ({ control := (control1.set_status StatusEnum.HANG).pause,
              conversation := conv1 ++ [{ role := "assistant", text := ext.prediction }],
              step := step1, parse_err_streak := streak0 + 1 },
            CycleOutcome.continued,
            (evs1 ++ [LoopEv.capture, LoopEv.invokeModel, LoopEv.hubPublish "conversation"]) ++
              [LoopEv.hubPublish "error", LoopEv.hubSetStatus StatusEnum.HANG,
                LoopEv.hubPublish "hang"])
        else
          afterParse cfg control1
            (conv1 ++ [{ role := "assistant", text := ext.prediction }]) step1
            (streak0 + 1) pred
            ((evs1 ++ [LoopEv.capture, LoopEv.invokeModel, LoopEv.hubPublish "conversation"]) ++
              [LoopEv.hubPublish "error"])
      else
        afterParse cfg control1
          (conv1 ++ [{ role := "assistant", text := ext.prediction }]) step1 0 pred
          (evs1 ++ [LoopEv.capture, LoopEv.invokeModel, LoopEv.hubPublish "conversation"])) := by
  unfold cycleCore
  rw [h]

theorem cycleCore_never_consults_cache (cfg : Config) (control1 : WorkerControl)
    (conv1 : List ConversationItem) (step1 streak0 : Nat) (ext : CycleExt)
    (evs1 : List LoopEv)
    (h1 : LoopEv.tryCache ∉ evs1) (h2 : LoopEv.computeFingerprint ∉ evs1) :
    LoopEv.tryCache ∉ (cycleCore cfg control1 conv1 step1 streak0 ext evs1).2.2 ∧
    LoopEv.computeFingerprint ∉ (cycleCore cfg control1 conv1 step1 streak0 ext evs1).2.2 ∧
    LoopEv.capture ∈ (cycleCore cfg control1 conv1 step1 streak0 ext evs1).2.2 ∧
    LoopEv.invokeModel ∈ (cycleCore cfg control1 conv1 step1 streak0 ext evs1).2.2 := by
  cases hp : ext.parsed with
  | nil =>
    rw [cycleCore_nil cfg control1 conv1 step1 streak0 ext evs1 hp]
    refine ⟨?_, ?_, ?_, ?_⟩ <;> simp [List.mem_append, h1, h2]
  | cons pred rest =>
    rw [cycleCore_cons cfg control1 conv1 step1 streak0 ext evs1 pred rest hp]
    by_cases herr : pred.action_type = "error_env"
    · rw [if_pos herr]
      by_cases h3 : 3 ≤ streak0 + 1
      · rw [if_pos h3]
        refine ⟨?_, ?_, ?_, ?_⟩ <;> simp [List.mem_append, h1, h2]
      · rw [if_neg h3]
        obtain ⟨tail, htr, t1, t2, t3, t4⟩ :=
          afterParse_trace cfg control1
            (conv1 ++ [{ role := "assistant", text := ext.prediction }]) step1
            (streak0 + 1) pred
            ((evs1 ++ [LoopEv.capture, LoopEv.invokeModel, LoopEv.hubPublish "conversation"]) ++
              [LoopEv.hubPublish "error"])
        rw [htr]
        refine ⟨?_, ?_, ?_, ?_⟩ <;> simp [List.mem_append, h1, h2, t1, t2]
    · rw [if_neg herr]
      obtain ⟨tail, htr, t1, t2, t3, t4⟩ :=
        afterParse_trace cfg control1
          (conv1 ++ [{ role := "assistant", text := ext.prediction }]) step1 0 pred
          (evs1 ++ [LoopEv.capture, LoopEv.invokeModel, LoopEv.hubPublish "conversation"])
      rw [htr]
      refine ⟨?_, ?_, ?_, ?_⟩ <;> simp [List.mem_append, h1, h2, t1, t2]

/-- C1 claim, refuted: a concrete ordinary cycle captures the screen and
invokes the model with no fingerprint computation and no cache
consultation anywhere in its trace — `Worker.run` has no cache path. -/
theorem cache_before_model_counterexample :
    LoopEv.capture ∈ (runCycle cfgEx stEx extEx).2.2 ∧
    LoopEv.invokeModel ∈ (runCycle cfgEx stEx extEx).2.2 ∧
    LoopEv.tryCache ∉ (runCycle cfgEx stEx extEx).2.2 ∧
    LoopEv.computeFingerprint ∉ (runCycle cfgEx stEx extEx).2.2 := by
  decide

/-- C1 amended: on every cycle `Worker.run` never computes a fingerprint
and never consults the memoization cache; whenever it captures the
screen it also invokes the model on that same cycle (and conversely). -/
theorem loop_never_consults_cache (cfg : Config) (st : LoopState) (ext : CycleExt) :
    LoopEv.tryCache ∉ (runCycle cfg st ext).2.2 ∧
    LoopEv.computeFingerprint ∉ (runCycle cfg st ext).2.2 ∧
    (LoopEv.capture ∈ (runCycle cfg st ext).2.2 ↔
      LoopEv.invokeModel ∈ (runCycle cfg st ext).2.2) := by
  unfold runCycle
  by_cases hstop : st.control.stopped = true
  · rw [if_pos hstop]
    refine ⟨by simp, by simp, by simp⟩
  · rw [if_neg hstop]
    by_cases hpause : st.control.paused = true
    · rw [if_pos hpause]
      refine ⟨by simp, by simp, by simp⟩
    · rw [if_neg hpause]
      by_cases hmax : cfg.max_loop_count < st.step + 1
      · rw [if_pos hmax]
        have hinj : ∀ ev ∈ injEvents st.control.pop_injected.1,
            ev = LoopEv.hubPublish "conversation" :=
          fun ev h => mem_injEvents _ ev h
        refine ⟨?_, ?_, ?_⟩
        · intro h
          rcases List.mem_append.mp h with h | h
          · cases hinj _ h
          · cases List.mem_cons.mp h with
            | inl h => cases h
            | inr h => cases h
        · intro h
          rcases List.mem_append.mp h with h | h
          · cases hinj _ h
          · cases List.mem_cons.mp h with
            | inl h => cases h
            | inr h => cases h
        · constructor
          · intro h
            exfalso
            rcases List.mem_append.mp h with h | h
            · cases hinj _ h
            · cases List.mem_cons.mp h with
              | inl h => cases h
              | inr h => cases h
          · intro h
            exfalso
            rcases List.mem_append.mp h with h | h
            · cases hinj _ h
            · cases List.mem_cons.mp h with
              | inl h => cases h
              | inr h => cases h
      · rw [if_neg hmax]
        have hinj : ∀ ev ∈ injEvents st.control.pop_injected.1,
            ev = LoopEv.hubPublish "conversation" :=
          fun ev h => mem_injEvents _ ev h
        have h1 : LoopEv.tryCache ∉ injEvents st.control.pop_injected.1 := by
          intro h
          cases hinj _ h
        have h2 : LoopEv.computeFingerprint ∉ injEvents st.control.pop_injected.1 := by
          intro h
          cases hinj _ h
        obtain ⟨hc1, hc2, hc3, hc4⟩ :=
          cycleCore_never_consults_cache cfg st.control.pop_injected.2
            (injConv st.conversation st.control.pop_injected.1) (st.step + 1)
            st.parse_err_streak ext (injEvents st.control.pop_injected.1) h1 h2
        exact ⟨hc1, hc2, ⟨fun _ => hc4, fun _ => hc3⟩⟩

/-- Witness for `loop_never_consults_cache` on the concrete ordinary cycle. -/
theorem loop_never_consults_cache_witness :
    LoopEv.tryCache ∉ (runCycle cfgEx stEx extEx).2.2 ∧
    (LoopEv.capture ∈ (runCycle cfgEx stEx extEx).2.2 ↔
      LoopEv.invokeModel ∈ (runCycle cfgEx stEx extEx).2.2) :=
  ⟨(loop_never_consults_cache cfgEx stEx extEx).1,
    (loop_never_consults_cache cfgEx stEx extEx).2.2⟩

theorem afterParse_evs_sub (cfg : Config) (control : WorkerControl)
    (conv : List ConversationItem) (step streak : Nat) (pred : PredictionParsed)
    (evs : List LoopEv) (ev : LoopEv) (h : ev ∈ evs) :
    ev ∈ (afterParse cfg control conv step streak pred evs).2.2 := by
  obtain ⟨tail, htr, _⟩ := afterParse_trace cfg control conv step streak pred evs
  rw [htr]
  exact List.mem_append_left _ h

theorem pop_injected_stopped (c : WorkerControl) :
    c.pop_injected.2.stopped = c.stopped := by
  unfold WorkerControl.pop_injected
  cases c.injected <;> rfl

theorem pop_injected_paused (c : WorkerControl) :
    c.pop_injected.2.paused = c.paused := by
  unfold WorkerControl.pop_injected
  cases c.injected <;> rfl

theorem cycleCore_parse (cfg : Config) (control1 : WorkerControl)
    (conv1 : List ConversationItem) (step1 streak0 : Nat) (ext : CycleExt)
    (evs1 : List LoopEv) (pred : PredictionParsed) (rest : List PredictionParsed)
    (hparsed : ext.parsed = pred :: rest)
    (hstopc : control1.stopped = false) (hpausec : control1.paused = false)
    (hexec : LoopEv.executeAction ∉ evs1) :
    (pred.action_type = "error_env" →
      ((cycleCore cfg control1 conv1 step1 streak0 ext evs1).1.parse_err_streak =
        streak0 + 1) ∧
      LoopEv.hubPublish "error" ∈ (cycleCore cfg control1 conv1 step1 streak0 ext evs1).2.2 ∧
      (3 ≤ streak0 + 1 →
        (cycleCore cfg control1 conv1 step1 streak0 ext evs1).1.control.status =
          StatusEnum.HANG ∧
        (cycleCore cfg control1 conv1 step1 streak0 ext evs1).1.control.paused = true ∧
        (cycleCore cfg control1 conv1 step1 streak0 ext evs1).2.1 =
          CycleOutcome.continued ∧
        LoopEv.executeAction ∉ (cycleCore cfg control1 conv1 step1 streak0 ext evs1).2.2)) ∧
    (pred.action_type ≠ "error_env" →
      (cycleCore cfg control1 conv1 step1 streak0 ext evs1).1.parse_err_streak = 0) := by
  rw [cycleCore_cons cfg control1 conv1 step1 streak0 ext evs1 pred rest hparsed]
  constructor
  · intro herr
    rw [if_pos herr]
    by_cases h3 : 3 ≤ streak0 + 1
    · rw [if_pos h3]
      refine ⟨rfl, by simp, fun _ => ⟨?_, ?_, rfl, ?_⟩⟩
      · simp [WorkerControl.set_status, WorkerControl.pause, hstopc, hpausec]
      · simp [WorkerControl.set_status, WorkerControl.pause, hstopc, hpausec]
      · simp [List.mem_append, hexec]
    · rw [if_neg h3]
      refine ⟨afterParse_streak _ _ _ _ _ _ _, ?_, fun h3' => absurd h3' h3⟩
      exact afterParse_evs_sub _ _ _ _ _ _ _ _ (by simp)
  · intro herr
    rw [if_neg herr]
    exact afterParse_streak _ _ _ _ _ _ _

theorem runCycle_eq_core (cfg : Config) (st : LoopState) (ext : CycleExt)
    (hstop : st.control.stopped = false) (hpause : st.control.paused = false)
    (hstep : st.step + 1 ≤ cfg.max_loop_count) :
    runCycle cfg st ext =
      cycleCore cfg st.control.pop_injected.2
        (injConv st.conversation st.control.pop_injected.1) (st.step + 1)
        st.parse_err_streak ext (injEvents st.control.pop_injected.1) := by
  simp only [runCycle]
  rw [if_neg (show ¬(st.control.stopped = true) by simp [hstop])]
  rw [if_neg (show ¬(st.control.paused = true) by simp [hpause])]
  rw [if_neg (show ¬(cfg.max_loop_count < st.step + 1) by omega)]

/-- C7: when the first parsed action is the parse-error marker
`error_env`, the cycle increments the consecutive-error streak and
publishes an `error` event; when the streak reaches 3 the cycle sets
status `HANG`, sets `paused`, continues the loop (no run termination)
and executes no action; any non-error parse resets the streak to 0. -/
theorem parse_error_streak (cfg : Config) (st : LoopState) (ext : CycleExt)
    (pred : PredictionParsed) (rest : List PredictionParsed)
    (hstop : st.control.stopped = false) (hpause : st.control.paused = false)
    (hstep : st.step + 1 ≤ cfg.max_loop_count)
    (hparsed : ext.parsed = pred :: rest) :
    (pred.action_type = "error_env" →
      ((runCycle cfg st ext).1.parse_err_streak = st.parse_err_streak + 1) ∧
      LoopEv.hubPublish "error" ∈ (runCycle cfg st ext).2.2 ∧
      (3 ≤ st.parse_err_streak + 1 →
        (runCycle cfg st ext).1.control.status = StatusEnum.HANG ∧
        (runCycle cfg st ext).1.control.paused = true ∧
        (runCycle cfg st ext).2.1 = CycleOutcome.continued ∧
        LoopEv.executeAction ∉ (runCycle cfg st ext).2.2)) ∧
    (pred.action_type ≠ "error_env" →
      (runCycle cfg st ext).1.parse_err_streak = 0) := by
  rw [runCycle_eq_core cfg st ext hstop hpause hstep]
  exact cycleCore_parse cfg st.control.pop_injected.2
    (injConv st.conversation st.control.pop_injected.1) (st.step + 1)
    st.parse_err_streak ext (injEvents st.control.pop_injected.1) pred rest hparsed
    (by rw [pop_injected_stopped]; exact hstop)
    (by rw [pop_injected_paused]; exact hpause)
    (fun h => by cases mem_injEvents _ _ h)

/-- Witness for `parse_error_streak`: a third consecutive parse error
parks the run in `HANG` + paused and the cycle continues without
executing an action. -/
theorem parse_error_streak_witness :
    (runCycle cfgEx stErr extErr).1.control.status = StatusEnum.HANG ∧
    (runCycle cfgEx stErr extErr).1.control.paused = true ∧
    (runCycle cfgEx stErr extErr).2.1 = CycleOutcome.continued ∧
    LoopEv.executeAction ∉ (runCycle cfgEx stErr extErr).2.2 :=
  ((parse_error_streak cfgEx stErr extErr
      { action_type := "error_env" } [] rfl rfl (by decide) rfl).1 rfl).2.2 (by decide)

end Iphoneclaw
